import Mathlib

/-!
Verification of the tag-filtered, time-windowed aggregation engine of
`expenses.py` (commands `list`, `average`, `compare`).

The embedding is shallow: entries are records with rational costs and
integer day-number dates; `(today - entry.date).days` becomes integer
subtraction of day numbers; Python's stable `sorted` becomes a stable
insertion sort `sortStable`; the pydblite store becomes a list of entries
in insertion order.  Money is modelled with rationals, matching the
source's exact `Decimal` arithmetic.
-/

namespace Expenses

/-- An expense record as stored by the database: `name`, `cost`
(an exact decimal, modelled as a rational), `date` (a calendar day
number; `today` is passed as a day number as well so that
`(today - entry.date).days` is plain integer subtraction), `tags`. -/
structure Entry where
  name : String
  cost : ℚ
  date : ℤ
  tags : List String
deriving Repr, DecidableEq

/-- The label list the source tests membership against:
`entry.tags + [entry.name]`. -/
def labels (e : Entry) : List String :=
  e.tags ++ [e.name]

/-- `tag.startswith('/')`: the first character is a slash. -/
def startsWithSlash (s : String) : Bool :=
  match s.data with
  | [] => false
  | c :: _ => c = '/'

/-- `tag.lstrip('/')`: drop every leading slash. -/
def lstripSlash (s : String) : String :=
  ⟨s.data.dropWhile (fun c => c = '/')⟩

/-- The tag-token loop shared by `list_entries`, `plot_average` and
`compare`: a token starting with `/` goes (slash-stripped) to the
exclude list, every other token to the include list, order preserved. -/
def parseTags : List String → List String × List String
  | [] => ([], [])
  | t :: rest =>
    let p := parseTags rest
    if startsWithSlash t then (p.1, lstripSlash t :: p.2)
    else (t :: p.1, p.2)

/-- The three sort columns `list_entries` accepts (`args.sort` is
asserted to be one of `name`, `cost`, `date`; absent means `date`). -/
inductive SortKey where
  | name
  | cost
  | date
deriving Repr, DecidableEq

/-- The comparison `sorted(..., key=lambda x: x[sort_key])` sorts by. -/
def keyLe (k : SortKey) (a b : Entry) : Bool :=
  match k with
  | SortKey.name => a.name ≤ b.name
  | SortKey.cost => a.cost ≤ b.cost
  | SortKey.date => a.date ≤ b.date

/-- Two entries have the same value in the sort column `k`. -/
def keyEq (k : SortKey) (a b : Entry) : Bool :=
  match k with
  | SortKey.name => a.name = b.name
  | SortKey.cost => a.cost = b.cost
  | SortKey.date => a.date = b.date

/-- Stable insertion: `a` moves past exactly the elements strictly
below it, so it lands before every element with an equal key.  Used to
model Python's `sorted`, which is specified to be stable. -/
def insertStable (le : Entry → Entry → Bool) (a : Entry) : List Entry → List Entry
  | [] => [a]
  | b :: l => if le b a && !(le a b) then b :: insertStable le a l else a :: b :: l

/-- Stable sort modelling Python's `sorted(entries, key=...)`: sorted
output, ties kept in original iteration order. -/
def sortStable (le : Entry → Entry → Bool) : List Entry → List Entry
  | [] => []
  | a :: l => insertStable le a (sortStable le l)

/-- `days = args.days if args.days else 30` in `list_entries`: Python
truthiness makes both `None` and `0` fall back to the default 30. -/
def list_days (argDays : Option ℤ) : ℤ :=
  match argDays with
  | some d => if d = 0 then 30 else d
  | none => 30

/-- `any(tag in entry.tags + [entry.name] for tag in ts)`. -/
def matchesAny (ts : List String) (e : Entry) : Bool :=
  ts.any (fun t => (labels e).contains t)

/-- The two `continue` tests of the `list_entries` loop: skip when the
include list is non-empty and nothing matches, or when the exclude list
is non-empty and something matches. -/
def list_skip (inc exc : List String) (e : Entry) : Bool :=
  (!inc.isEmpty && !matchesAny inc e) || (!exc.isEmpty && matchesAny exc e)

/-- Core of `list_entries` after argument handling: keep the entries
with `(today - entry.date).days <= days` (the source has no lower
bound), sort them stably by the sort column, drop the entries the tag
filter skips, return the printed entries and the accumulated total. -/
def list_entries_core (db : List Entry) (today days : ℤ) (k : SortKey)
    (inc exc : List String) : List Entry × ℚ :=
  let win := db.filter (fun e => today - e.date ≤ days)
  let shown := (sortStable (keyLe k) win).filter (fun e => !list_skip inc exc e)
  (shown, (shown.map Entry.cost).sum)

/-- `list_entries`: resolve `days` (`None`/`0` ↦ 30), split the raw
tokens into include/exclude lists, then run the filtered listing. -/
def list_entries (db : List Entry) (today : ℤ) (argDays : Option ℤ)
    (k : SortKey) (argTags : List String) : List Entry × ℚ :=
  let p := parseTags argTags
  list_entries_core db today (list_days argDays) k p.1 p.2

/-- Module-level constant `days_per_month = 30`. -/
def days_per_month : ℤ := 30

/-- Pointwise update of the `total_cost` dictionary. -/
def update (tc : String → ℚ) (k : String) (v : ℚ) : String → ℚ :=
  fun x => if x = k then v else tc x

/-- The exclude `continue` test shared by `plot_average` and `compare`:
`exclude_tags and any(tag in entry.tags + [entry.name] ...)`. -/
def excludeSkip (exc : List String) (e : Entry) : Bool :=
  !exc.isEmpty && matchesAny exc e

/-- Comparison by `date` used by the `sorted(..., key=lambda x: x.date)`
calls inside `plot_average` and `compare`. -/
def dateLe (a b : Entry) : Bool :=
  a.date ≤ b.date

/-- Inner tag loop of `plot_average`:
`for tag in include_tags: if tag == "all" or tag in entry.tags + [entry.name]: total_cost[tag] += entry.cost`. -/
def avgEntryStep (inc : List String) (e : Entry) (tc : String → ℚ) : String → ℚ :=
  inc.foldl
    (fun acc tag =>
      if tag = "all" || (labels e).contains tag then update acc tag (acc tag + e.cost)
      else acc)
    tc

/-- One iteration of `plot_average`'s offset loop: the `total_cost`
dictionary built over the entries with
`current_day <= (today - entry.date).days <= days_per_month + current_day`,
sorted by date, skipping excluded entries.  The dictionary starts at 0
on every key. -/
def avgOffsetCost (db : List Entry) (inc exc : List String) (today k : ℤ) :
    String → ℚ :=
  (sortStable dateLe
      (db.filter (fun e =>
        decide (k ≤ today - e.date) && decide (today - e.date ≤ days_per_month + k)))).foldl
    (fun tc e => if excludeSkip exc e then tc else avgEntryStep inc e tc)
    (fun _ => 0)

/-- `if not include_tags: include_tags = ["all"]` (executed at the top
of every loop iteration, so hoisting it out of the loop is exact for
the iterations that run). -/
def effInc (inc : List String) : List String :=
  if inc.isEmpty then ["all"] else inc

/-- The `average_costs` series of `plot_average`: one `total_cost`
dictionary per `current_day in range(days)`, ascending. -/
def average_costs (db : List Entry) (today : ℤ) (incRaw exc : List String)
    (days : ℤ) : List (String → ℚ) :=
  (List.range days.toNat).map (fun k => avgOffsetCost db (effInc incRaw) exc today (Int.ofNat k))

/-- `plot_average`'s day-span:
`days = args.days if args.days else (today - db[0].date).days - days_per_month`
(Python truthiness sends both `None` and `0` to the default; `db[0]` on
an empty store raises, modelled as `none`). -/
def plot_average_days (db : List Entry) (today : ℤ) (argDays : Option ℤ) :
    Option ℤ :=
  match argDays with
  | some d =>
    if d = 0 then db.head?.map (fun e => today - e.date - days_per_month)
    else some d
  | none => db.head?.map (fun e => today - e.date - days_per_month)

/-- The series `plot_average` computes, after resolving `days` and
splitting the raw tag tokens. -/
def average_series (db : List Entry) (today : ℤ) (argDays : Option ℤ)
    (argTags : List String) : Option (List (String → ℚ)) :=
  (plot_average_days db today argDays).map (fun days =>
    let p := parseTags argTags
    average_costs db today p.1 p.2 days)

/-- The value of the mutable `include_tags` after the offset loop: it
was replaced by `["all"]` exactly when it started empty and the loop
body ran at least once. -/
def include_after_loop (inc : List String) (days : ℤ) : List String :=
  if inc.isEmpty && decide (1 ≤ days) then ["all"] else inc

/-- The calls `plot_average` hands to `np.polyfit`, each as the pair
(y-series, degree).  With `--combine` there is a single call on the
per-offset sums over the include tags; otherwise one call per include
tag.  The source performs no validation of the degree anywhere on this
path. -/
def average_fit_calls (db : List Entry) (today : ℤ) (argDays : Option ℤ)
    (argTags : List String) (order : ℤ) (combine : Bool) :
    Option (List (List ℚ × ℤ)) :=
  (plot_average_days db today argDays).map (fun days =>
    let p := parseTags argTags
    let series := average_costs db today p.1 p.2 days
    let inc := include_after_loop p.1 days
    if combine then [(series.map (fun tc => (inc.map tc).sum), order)]
    else inc.map (fun t => (series.map (fun tc => tc t), order)))

/-- `days = args.days if args.days else 30` in `compare` (same Python
truthiness pattern as in `list_entries`). -/
def compare_days (argDays : Option ℤ) : ℤ :=
  match argDays with
  | some d => if d = 0 then 30 else d
  | none => 30

/-- Inner tag loop of `compare`:
`for tag in include_tags: if tag in entry.tags + [entry.name]: total_cost[tag] += entry.cost`. -/
def compareEntryStep (inc : List String) (e : Entry) (tc : String → ℚ) : String → ℚ :=
  inc.foldl
    (fun acc tag =>
      if (labels e).contains tag then update acc tag (acc tag + e.cost)
      else acc)
    tc

/-- `compare`: resolve `days`, split the raw tokens, assert at least one
include tag (`none` models the `AssertionError`), accumulate the
`total_cost` dictionary over the entries with
`0 <= (today - entry.date).days <= days` sorted by date, and return the
per-tag totals in the order the include tags were supplied. -/
def compare (db : List Entry) (today : ℤ) (argDays : Option ℤ)
    (argTags : List String) : Option (List (String × ℚ)) :=
  let days := compare_days argDays
  let p := parseTags argTags
  if 0 < p.1.length then
    let tc :=
      (sortStable dateLe
          (db.filter (fun e =>
            decide (0 ≤ today - e.date) && decide (today - e.date ≤ days)))).foldl
        (fun tc e => if excludeSkip p.2 e then tc else compareEntryStep p.1 e tc)
        (fun _ => 0)
    some (p.1.map (fun t => (t, tc t)))
  else none

/-- Independent direct sum the spec describes for the Aggregator's
`"all"` bucket at offset `k`: total cost of the entries that are not
excluded and whose day offset lies in `[k, days_per_month + k]`,
summed straight off the store. -/
def avgDirectSum (db : List Entry) (exc : List String) (today k : ℤ) : ℚ :=
  ((db.filter (fun e =>
      !excludeSkip exc e
        && (decide (k ≤ today - e.date) && decide (today - e.date ≤ days_per_month + k)))).map
    Entry.cost).sum

/-- Independent direct sum the spec describes for `compareView`: total
cost of the non-excluded entries labelled `t` whose day offset lies in
the single window `[0, days]`. -/
def compareDirectSum (db : List Entry) (exc : List String) (today days : ℤ)
    (t : String) : ℚ :=
  ((db.filter (fun e =>
      (!excludeSkip exc e && (labels e).contains t)
        && (decide (0 ≤ today - e.date) && decide (today - e.date ≤ days)))).map
    Entry.cost).sum

/-- Modelled from the spec: the repository delegates trend fitting to
`np.polyfit` (an external library, no source in the repository), which
the spec describes as ordinary least-squares polynomial regression.
Polynomials are coefficient lists, lowest degree first, evaluated by
Horner's rule. -/
def evalPoly (p : List ℚ) (x : ℚ) : ℚ :=
  p.foldr (fun c acc => c + x * acc) 0

/-- Modelled from the spec: residual sum of squares of a candidate
polynomial on the data points. -/
def rss (p : List ℚ) (pts : List (ℚ × ℚ)) : ℚ :=
  (pts.map (fun q => (evalPoly p q.1 - q.2) ^ 2)).sum

/-- Modelled from the spec: `p` is an ordinary least-squares fit of
degree at most `d` to the points — it has at most `d + 1` coefficients
and minimises the residual sum of squares among all such polynomials. -/
def IsLeastSquaresFit (d : ℕ) (pts : List (ℚ × ℚ)) (p : List ℚ) : Prop :=
  p.length ≤ d + 1 ∧ ∀ q : List ℚ, q.length ≤ d + 1 → rss p pts ≤ rss q pts

/-! ### Properties of the stable sort -/

theorem insertStable_perm (le : Entry → Entry → Bool) (a : Entry) :
    ∀ l, (insertStable le a l).Perm (a :: l) := by
  intro l
  induction l with
  | nil => simp [insertStable]
  | cons b t ih =>
    unfold insertStable
    by_cases h : (le b a && !le a b) = true
    · rw [if_pos h]
      exact (ih.cons b).trans (List.Perm.swap a b t)
    · rw [if_neg h]

theorem sortStable_perm (le : Entry → Entry → Bool) :
    ∀ l, (sortStable le l).Perm l := by
  intro l
  induction l with
  | nil => simp [sortStable]
  | cons a t ih =>
    unfold sortStable
    exact (insertStable_perm le a (sortStable le t)).trans (ih.cons a)

theorem mem_sortStable (le : Entry → Entry → Bool) (l : List Entry) (a : Entry) :
    a ∈ sortStable le l ↔ a ∈ l :=
  (sortStable_perm le l).mem_iff

theorem pairwise_insertStable (le : Entry → Entry → Bool)
    (htrans : ∀ a b c, le a b = true → le b c = true → le a c = true)
    (htot : ∀ a b, (le a b || le b a) = true) (a : Entry) :
    ∀ l, l.Pairwise (fun x y => le x y = true) →
      (insertStable le a l).Pairwise (fun x y => le x y = true) := by
  intro l
  induction l with
  | nil => simp [insertStable]
  | cons b t ih =>
    intro hp
    rw [List.pairwise_cons] at hp
    unfold insertStable
    by_cases h : (le b a && !le a b) = true
    · rw [if_pos h]
      rw [List.pairwise_cons]
      refine ⟨?_, ih hp.2⟩
      intro x hx
      rw [(insertStable_perm le a t).mem_iff, List.mem_cons] at hx
      rcases hx with hx | hx
      · rw [hx]
        exact ((Bool.and_eq_true _ _).mp h).1
      · exact hp.1 x hx
    · rw [if_neg h]
      have hab : le a b = true := by
        cases hle : le a b with
        | true => rfl
        | false =>
          exfalso
          apply h
          have h1 : le b a = true := by
            have h2 := htot a b
            rw [hle] at h2
            simpa using h2
          rw [h1, hle]
          rfl
      rw [List.pairwise_cons]
      refine ⟨?_, List.pairwise_cons.mpr hp⟩
      intro x hx
      rcases List.mem_cons.mp hx with hx | hx
      · rw [hx]; exact hab
      · exact htrans a b x hab (hp.1 x hx)

theorem pairwise_sortStable (le : Entry → Entry → Bool)
    (htrans : ∀ a b c, le a b = true → le b c = true → le a c = true)
    (htot : ∀ a b, (le a b || le b a) = true) :
    ∀ l, (sortStable le l).Pairwise (fun x y => le x y = true) := by
  intro l
  induction l with
  | nil => simp [sortStable]
  | cons a t ih =>
    exact pairwise_insertStable le htrans htot a (sortStable le t) ih

theorem filter_insertStable (le : Entry → Entry → Bool) (p : Entry → Bool) (a : Entry)
    (h : ∀ b, p a = true → p b = true → le a b = true) :
    ∀ s, (insertStable le a s).filter p
      = if p a then a :: s.filter p else s.filter p := by
  intro s
  induction s with
  | nil => cases hpa : p a <;> simp [insertStable, hpa]
  | cons b t ih =>
    unfold insertStable
    by_cases hc : (le b a && !le a b) = true
    · rw [if_pos hc, List.filter_cons, ih]
      by_cases hpa : p a = true
      · have hpb : p b = false := by
          by_contra hpb
          rw [Bool.not_eq_false] at hpb
          have hab := h b hpa hpb
          rw [hab] at hc
          simp at hc
        simp [hpa, hpb, List.filter_cons]
      · rw [Bool.not_eq_true] at hpa
        simp [hpa, List.filter_cons]
    · rw [if_neg hc]
      by_cases hpa : p a = true
      · simp [hpa, List.filter_cons]
      · rw [Bool.not_eq_true] at hpa
        simp [hpa, List.filter_cons]

theorem filter_sortStable (le : Entry → Entry → Bool) (p : Entry → Bool)
    (h : ∀ x y, p x = true → p y = true → le x y = true) :
    ∀ l, (sortStable le l).filter p = l.filter p := by
  intro l
  induction l with
  | nil => simp [sortStable]
  | cons a t ih =>
    unfold sortStable
    rw [filter_insertStable le p a (fun b => h a b), ih, List.filter_cons]

/-! ### Aggregation lemmas -/

theorem average_costs_length (db : List Entry) (today : ℤ) (inc exc : List String)
    (days : ℤ) : (average_costs db today inc exc days).length = days.toNat := by
  unfold average_costs
  rw [List.length_map, List.length_range]

theorem avgEntryStep_all (e : Entry) (tc : String → ℚ) :
    avgEntryStep ["all"] e tc "all" = tc "all" + e.cost := by
  simp [avgEntryStep, update]

theorem avg_fold_all (exc : List String) :
    ∀ (l : List Entry) (tc : String → ℚ),
      (l.foldl (fun tc e => if excludeSkip exc e then tc else avgEntryStep ["all"] e tc) tc)
          "all"
        = tc "all" + ((l.filter (fun e => !excludeSkip exc e)).map Entry.cost).sum := by
  intro l
  induction l with
  | nil => intro tc; simp
  | cons e t ih =>
    intro tc
    rw [List.foldl_cons, List.filter_cons]
    by_cases hs : excludeSkip exc e = true
    · rw [if_pos hs, ih, if_neg (by rw [hs]; simp)]
    · rw [Bool.not_eq_true] at hs
      rw [if_neg (by rw [hs]; simp), if_pos (by rw [hs]; simp), ih, avgEntryStep_all]
      rw [List.map_cons, List.sum_cons]
      ring

theorem avgOffsetCost_all (db : List Entry) (exc : List String) (today k : ℤ) :
    avgOffsetCost db ["all"] exc today k "all" = avgDirectSum db exc today k := by
  unfold avgOffsetCost avgDirectSum
  rw [avg_fold_all]
  rw [((sortStable_perm dateLe _).filter _).map Entry.cost |>.sum_eq]
  rw [List.filter_filter]
  simp

theorem compareStep_eval (e : Entry) (t : String) :
    ∀ (inc : List String) (tc : String → ℚ), inc.Nodup →
      compareEntryStep inc e tc t
        = tc t + (if t ∈ inc ∧ (labels e).contains t = true then e.cost else 0) := by
  intro inc
  induction inc with
  | nil => intro tc _; simp [compareEntryStep]
  | cons a rest ih =>
    intro tc hnd
    rw [List.nodup_cons] at hnd
    unfold compareEntryStep
    rw [List.foldl_cons]
    have hrec := ih (if (labels e).contains a = true then update tc a (tc a + e.cost) else tc)
      hnd.2
    unfold compareEntryStep at hrec
    rw [hrec]
    by_cases hta : t = a
    · subst hta
      have hnr : ¬ (t ∈ rest ∧ (labels e).contains t = true) := fun hc => hnd.1 hc.1
      rw [if_neg hnr]
      by_cases hct : (labels e).contains t = true
      · rw [if_pos hct, if_pos ⟨List.mem_cons_self t rest, hct⟩]
        simp [update]
      · rw [if_neg hct, if_neg (fun hc => hct hc.2)]
    · have hstep : (if (labels e).contains a = true then update tc a (tc a + e.cost) else tc) t
          = tc t := by
        by_cases hca : (labels e).contains a = true
        · rw [if_pos hca]; simp [update, hta]
        · rw [if_neg hca]
      rw [hstep]
      by_cases htr : t ∈ rest ∧ (labels e).contains t = true
      · rw [if_pos htr, if_pos ⟨List.mem_cons_of_mem a htr.1, htr.2⟩]
      · rw [if_neg htr, if_neg (fun hc => htr ⟨(List.mem_cons.mp hc.1).resolve_left hta, hc.2⟩)]

theorem compare_fold_eval (inc exc : List String) (t : String)
    (hnd : inc.Nodup) (ht : t ∈ inc) :
    ∀ (l : List Entry) (tc : String → ℚ),
      (l.foldl (fun tc e => if excludeSkip exc e then tc else compareEntryStep inc e tc) tc) t
        = tc t
          + ((l.filter (fun e => !excludeSkip exc e && (labels e).contains t)).map
              Entry.cost).sum := by
  intro l
  induction l with
  | nil => intro tc; simp
  | cons e rest ih =>
    intro tc
    rw [List.foldl_cons, List.filter_cons]
    by_cases hs : excludeSkip exc e = true
    · rw [if_pos hs, ih, if_neg (by rw [hs]; simp)]
    · rw [Bool.not_eq_true] at hs
      rw [if_neg (by rw [hs]; simp), ih, compareStep_eval e t inc tc hnd]
      by_cases hct : (labels e).contains t = true
      · rw [if_pos ⟨ht, hct⟩, if_pos (by rw [hs, hct]; simp)]
        rw [List.map_cons, List.sum_cons]
        ring
      · have hct2 : (labels e).contains t = false := by
          rw [Bool.not_eq_true] at hct
          exact hct
        rw [if_neg (fun hc => hct hc.2), if_neg (by rw [hct2]; simp), add_zero]

theorem contains_true_iff (l : List String) (t : String) :
    l.contains t = true ↔ t ∈ l := by
  simp

theorem average_costs_getD (db : List Entry) (today : ℤ) (inc exc : List String)
    (days : ℤ) (k : ℕ) (d : String → ℚ) (hk : k < days.toNat) :
    (average_costs db today inc exc days).getD k d
      = avgOffsetCost db (effInc inc) exc today (Int.ofNat k) := by
  unfold average_costs
  rw [List.getD_eq_getElem _ _ (by rw [List.length_map, List.length_range]; exact hk)]
  rw [List.getElem_map, List.getElem_range]

theorem mem_list_entries_core (db : List Entry) (today days : ℤ) (k : SortKey)
    (inc exc : List String) (e : Entry) :
    e ∈ (list_entries_core db today days k inc exc).1
      ↔ e ∈ db ∧ today - e.date ≤ days ∧ list_skip inc exc e = false := by
  unfold list_entries_core
  rw [List.mem_filter, mem_sortStable, List.mem_filter]
  simp [and_assoc]

/-- The resolved `plot_average` day span for an explicitly given nonzero
`--days` argument is that argument itself. -/
theorem plot_average_days_some (db : List Entry) (today : ℤ) (d : ℤ) (hd : d ≠ 0) :
    plot_average_days db today (some d) = some d := by
  simp only [plot_average_days]
  rw [if_neg hd]

/-! ### Claims -/

/-- C1 (counterexample): on the spec's own example — a single 800.00
entry dated five days before the reference day, `windowSizeDays = 30`
(the source's fixed `days_per_month`), caller-supplied
`totalDays = 32` — the series produced by `plot_average` has 32
offsets, not the `totalDays − windowSizeDays = 2` the claim states. -/
theorem C1_counterexample :
    (average_series [⟨"Rent", 800, 0, ["housing"]⟩] 5 (some 32) ["housing"]).map List.length
        = some 32
      ∧ (32 : ℕ) ≠ 32 - 30 := by
  constructor
  · have h : average_series [⟨"Rent", 800, 0, ["housing"]⟩] 5 (some 32) ["housing"]
        = some (average_costs [⟨"Rent", 800, 0, ["housing"]⟩] 5
            (parseTags ["housing"]).1 (parseTags ["housing"]).2 32) := by
      norm_num [average_series, plot_average_days]
    rw [h, Option.map_some', average_costs_length]
    rfl
  · decide

/-- C1 (amended): for a caller-supplied nonzero `totalDays`, the
`plot_average` series has exactly `totalDays` offsets (`range(days)`),
not `totalDays − windowSizeDays`; with `totalDays = 32` the series has
32 offsets. -/
theorem C1_series_length (db : List Entry) (today : ℤ) (argTags : List String)
    (d : ℤ) (hd : d ≠ 0) :
    (average_series db today (some d) argTags).map List.length = some d.toNat := by
  unfold average_series
  rw [plot_average_days_some db today d hd, Option.map_some', Option.map_some']
  rw [average_costs_length]

/-- C1 (witness): the amended count at a concrete input: `totalDays = 40`
yields a 40-offset series. -/
theorem C1_witness :
    (average_series [⟨"Rent", 800, 0, ["housing"]⟩] 5 (some 40) ["housing"]).map List.length
      = some 40 := by
  rw [C1_series_length [⟨"Rent", 800, 0, ["housing"]⟩] 5 ["housing"] 40 (by decide)]
  rfl

/-- C2 (counterexample): an entry dated three days after the reference
day (day offset −3) is included by `list_entries` in both the listing
and the total, because the source filter
`(today - entry.date).days <= days` has no lower bound. -/
theorem C2_counterexample :
    (0 : ℤ) - (Entry.mk "Gym" 50 3 []).date < 0
      ∧ list_entries [⟨"Gym", 50, 3, []⟩] 0 none SortKey.date []
          = ([⟨"Gym", 50, 3, []⟩], 50) := by
  constructor
  · decide
  · norm_num +decide [list_entries, list_entries_core, list_days, parseTags, sortStable,
      insertStable, list_skip, matchesAny, labels]

/-- C2 (amended): an entry appears in `list_entries`'s output exactly
when it is in the store, its day offset is at most `days` (no lower
bound — future-dated entries with negative offsets are included), and
the tag filter does not skip it. -/
theorem C2_window_membership (db : List Entry) (today days : ℤ) (k : SortKey)
    (inc exc : List String) (e : Entry) :
    e ∈ (list_entries_core db today days k inc exc).1
      ↔ e ∈ db ∧ today - e.date ≤ days ∧ list_skip inc exc e = false :=
  mem_list_entries_core db today days k inc exc e

/-- C6 (counterexample): the raw token `"/"` is not rejected: the parse
loop sends it to the exclude side as the empty label. -/
theorem C6_counterexample : parseTags ["/"] = ([], [""]) := by
  decide

/-- C6 (amended): a raw token that is just `"/"` is silently turned
into an exclude constraint on the empty label (no error is raised, the
token is not dropped). -/
theorem C6_slash_token (rest : List String) :
    parseTags ("/" :: rest) = ((parseTags rest).1, "" :: (parseTags rest).2) :=
  rfl

/-- C10: in both `list_entries` and `compare`, an explicit day span of
0 is Python-falsy and therefore indistinguishable from an absent
argument: both views behave exactly as with the default 30-day
window. -/
theorem C10_zero_days_default (db : List Entry) (today : ℤ) (k : SortKey)
    (ts : List String) :
    list_entries db today (some 0) k ts = list_entries db today none k ts
      ∧ compare db today (some 0) ts = compare db today none ts :=
  ⟨rfl, rfl⟩

/-- C3: with no include tags the Aggregator accumulates into the single
synthetic `"all"` bucket, and at every offset of the series that bucket
holds exactly the independently computed direct sum of the costs of the
non-excluded entries whose day offset lies in
`[currentOffset, windowSizeDays + currentOffset]` — each surviving
entry counted once. -/
theorem C3_all_bucket_conservation (db : List Entry) (exc : List String)
    (today days : ℤ) (k : ℕ)
    (hk : k < (average_costs db today [] exc days).length) :
    (average_costs db today [] exc days).getD k (fun _ => 0) "all"
      = avgDirectSum db exc today (Int.ofNat k) := by
  have hk2 : k < days.toNat := by
    rw [average_costs_length] at hk
    exact hk
  rw [average_costs_getD db today [] exc days k _ hk2]
  have heff : effInc ([] : List String) = ["all"] := rfl
  rw [heff, avgOffsetCost_all]

/-- C3 (witness): two entries (800.00 at offset 5 and 50.00 at offset
2), empty tag filter, offset 0: the `"all"` bucket holds 850.00, the
direct sum over the 30-day window. -/
theorem C3_witness :
    (average_costs [⟨"Rent", 800, 0, ["housing"]⟩, ⟨"Gym", 50, 3, []⟩] 5 [] [] 2).getD 0
        (fun _ => 0) "all" = 850 := by
  rw [C3_all_bucket_conservation [⟨"Rent", 800, 0, ["housing"]⟩, ⟨"Gym", 50, 3, []⟩] [] 5 2 0
    (by rw [average_costs_length]; decide)]
  norm_num +decide [avgDirectSum, excludeSkip, matchesAny, labels, days_per_month]

/-- C4: with a duplicate-free, non-empty include list, `compare`
returns exactly one `(tag, total)` pair per include tag, in supply
order, where each total is the direct sum of the costs of the
non-excluded entries labelled with that tag inside the single fixed
window `0 ≤ (today − entry.date).days ≤ totalDays`; an unmatched tag
gets total 0 (the sum over an empty selection). -/
theorem C4_compare_totals (db : List Entry) (today : ℤ) (argDays : Option ℤ)
    (argTags : List String)
    (hne : (parseTags argTags).1 ≠ [])
    (hnd : (parseTags argTags).1.Nodup) :
    compare db today argDays argTags
      = some ((parseTags argTags).1.map (fun t =>
          (t, compareDirectSum db (parseTags argTags).2 today (compare_days argDays) t))) := by
  simp only [compare]
  rw [if_pos (List.length_pos.mpr hne)]
  congr 1
  apply List.map_congr_left
  intro t ht
  have hfold := compare_fold_eval (parseTags argTags).1 (parseTags argTags).2 t hnd ht
    (sortStable dateLe
      (db.filter (fun e =>
        decide (0 ≤ today - e.date) && decide (today - e.date ≤ compare_days argDays))))
    (fun _ => 0)
  rw [hfold, zero_add]
  rw [(((sortStable_perm dateLe _).filter _).map Entry.cost).sum_eq]
  rw [List.filter_filter]
  rfl

/-- C4 (witness): the spec's example — one 800.00 entry tagged
`housing`, include list `["housing", "food"]`, nothing tagged `food` —
yields `[("housing", 800.00), ("food", 0.00)]`. -/
theorem C4_witness :
    compare [⟨"Rent", 800, 0, ["housing"]⟩] 5 (some 30) ["housing", "food"]
      = some [("housing", 800), ("food", 0)] := by
  rw [C4_compare_totals [⟨"Rent", 800, 0, ["housing"]⟩] 5 (some 30) ["housing", "food"]
    (by decide) (by decide)]
  norm_num +decide [compareDirectSum, compare_days, parseTags, startsWithSlash,
    excludeSkip, matchesAny, labels]

/-- C5: an entry whose label set meets both the include and the exclude
list is skipped by the tag filter (exclude wins), hence never appears
in the output of the listing view, so its cost is not part of the
total. -/
theorem C5_exclude_precedence (inc exc : List String) (e : Entry)
    (hi : ∃ t ∈ inc, t ∈ labels e) (he : ∃ t ∈ exc, t ∈ labels e) :
    list_skip inc exc e = true
      ∧ ∀ (db : List Entry) (today days : ℤ) (k : SortKey),
          e ∉ (list_entries_core db today days k inc exc).1 := by
  have hskip : list_skip inc exc e = true := by
    obtain ⟨t, htm, htl⟩ := he
    have hexc : matchesAny exc e = true := by
      unfold matchesAny
      rw [List.any_eq_true]
      exact ⟨t, htm, (contains_true_iff (labels e) t).mpr htl⟩
    have hne : exc.isEmpty = false :=
      List.isEmpty_eq_false.mpr (List.ne_nil_of_mem htm)
    unfold list_skip
    rw [hexc, hne]
    simp
  refine ⟨hskip, ?_⟩
  intro db today days k hmem
  have h2 := (mem_list_entries_core db today days k inc exc e).mp hmem
  rw [hskip] at h2
  exact absurd h2.2.2 (by simp)

/-- C5 (witness): include `["food"]`, exclude `["food"]`, an entry
tagged `food` matches both, is skipped, and is absent from the
listing built over a store containing only it. -/
theorem C5_witness :
    list_skip ["food"] ["food"] ⟨"Lunch", 10, 1, ["food"]⟩ = true
      ∧ (⟨"Lunch", 10, 1, ["food"]⟩ : Entry)
          ∉ (list_entries_core [⟨"Lunch", 10, 1, ["food"]⟩] 5 30 SortKey.date
              ["food"] ["food"]).1 := by
  have h := C5_exclude_precedence ["food"] ["food"] ⟨"Lunch", 10, 1, ["food"]⟩
    ⟨"food", by decide, by decide⟩ ⟨"food", by decide, by decide⟩
  exact ⟨h.1, h.2 [⟨"Lunch", 10, 1, ["food"]⟩] 5 30 SortKey.date⟩

/-- C7 (counterexample): with one offset (`totalDays = 1`) and the
default degree 5 — an invalid combination per the claim, since
`degree ≥ numOffsets` — `plot_average` still issues exactly one
`np.polyfit` call, on the 1-point series `[800]` with degree 5; nothing
is rejected and no configuration error is raised. -/
theorem C7_counterexample :
    average_fit_calls [⟨"Rent", 800, 0, ["housing"]⟩] 5 (some 1) ["housing"] 5 true
        = some [([(800 : ℚ)], 5)]
      ∧ (1 : ℤ) ≤ 5 := by
  constructor
  · norm_num +decide [average_fit_calls, plot_average_days, parseTags, startsWithSlash,
      average_costs, include_after_loop, avgOffsetCost, sortStable, insertStable,
      excludeSkip, matchesAny, labels, avgEntryStep, update, effInc, days_per_month,
      List.range_succ]
  · decide

/-- C7 (amended): `plot_average` never validates the fit degree: for a
caller-supplied nonzero day span and any degree — in particular a
negative one or one at least the number of points — the combine path
issues exactly one fit call and passes the degree through unchanged. -/
theorem C7_degree_never_rejected (db : List Entry) (today : ℤ) (argTags : List String)
    (d order : ℤ) (hd : d ≠ 0)
    (hbad : order < 0 ∨ (d.toNat : ℤ) ≤ order) :
    (average_fit_calls db today (some d) argTags order true).map
        (fun calls => (calls.length, calls.map Prod.snd))
      = some (1, [order]) := by
  unfold average_fit_calls
  rw [plot_average_days_some db today d hd, Option.map_some', Option.map_some']
  rfl

/-- C7 (witness): a negative degree (−2) on a 1-point series is passed
straight to the fitter: one call, degree −2. -/
theorem C7_witness :
    (average_fit_calls [⟨"Rent", 800, 0, ["housing"]⟩] 5 (some 1) ["housing"] (-2) true).map
        (fun calls => (calls.length, calls.map Prod.snd))
      = some (1, [-2]) :=
  C7_degree_never_rejected [⟨"Rent", 800, 0, ["housing"]⟩] 5 ["housing"] 1 (-2)
    (by decide) (Or.inl (by decide))

theorem rss_nonneg (p : List ℚ) (pts : List (ℚ × ℚ)) : 0 ≤ rss p pts := by
  apply List.sum_nonneg
  intro x hx
  obtain ⟨pt, _, rfl⟩ := List.mem_map.mp hx
  positivity

theorem sum_zero_of_nonneg : ∀ (l : List ℚ), (∀ x ∈ l, 0 ≤ x) → l.sum = 0 →
    ∀ x ∈ l, x = 0 := by
  intro l
  induction l with
  | nil => intro _ _ x hx; exact absurd hx (List.not_mem_nil x)
  | cons a t ih =>
    intro hpos hsum x hx
    rw [List.sum_cons] at hsum
    have ha : 0 ≤ a := hpos a (List.mem_cons_self a t)
    have ht : 0 ≤ t.sum := List.sum_nonneg (fun y hy => hpos y (List.mem_cons_of_mem a hy))
    have ha0 : a = 0 := by linarith
    have ht0 : t.sum = 0 := by linarith
    rcases List.mem_cons.mp hx with hx | hx
    · rw [hx]; exact ha0
    · exact ih (fun y hy => hpos y (List.mem_cons_of_mem a hy)) ht0 x hx

/-- C8: if the data are exactly the values of a polynomial `q` of
degree at most `d`, then any least-squares fit `p` of degree at most
`d` reproduces the data exactly at every sample point: the minimal
residual is 0, so every residual of `p` vanishes.  (The repository
delegates the fit to `np.polyfit`; the least-squares predicate is
modelled from the spec over exact rationals, the idealisation of
"within floating tolerance".) -/
theorem C8_fit_idempotence (pts : List (ℚ × ℚ)) (d : ℕ) (q p : List ℚ)
    (hq : q.length ≤ d + 1)
    (hexact : ∀ pt ∈ pts, pt.2 = evalPoly q pt.1)
    (hp : IsLeastSquaresFit d pts p) :
    ∀ pt ∈ pts, evalPoly p pt.1 = pt.2 := by
  have hq0 : rss q pts = 0 := by
    apply List.sum_eq_zero
    intro x hx
    obtain ⟨pt, hpt, rfl⟩ := List.mem_map.mp hx
    rw [← hexact pt hpt, sub_self]
    ring
  have hple : rss p pts ≤ 0 := hq0 ▸ hp.2 q hq
  have hpz : rss p pts = 0 := le_antisymm hple (rss_nonneg p pts)
  intro pt hpt
  have hterm : (evalPoly p pt.1 - pt.2) ^ 2 = 0 := by
    apply sum_zero_of_nonneg (pts.map (fun q2 => (evalPoly p q2.1 - q2.2) ^ 2))
    · intro x hx
      obtain ⟨pt2, _, rfl⟩ := List.mem_map.mp hx
      positivity
    · exact hpz
    · exact List.mem_map_of_mem (fun q2 => (evalPoly p q2.1 - q2.2) ^ 2) hpt
  have hsub : evalPoly p pt.1 - pt.2 = 0 :=
    (pow_eq_zero_iff (two_ne_zero)).mp hterm
  exact sub_eq_zero.mp hsub

/-- C8 (witness): the line `y = 1 + 2x` through `(0, 1)` and `(1, 3)`,
fitted with degree 1, reproduces the data; here at `x = 0`. -/
theorem C8_witness : evalPoly [1, 2] 0 = (1 : ℚ) := by
  have hp : IsLeastSquaresFit 1 [((0 : ℚ), (1 : ℚ)), (1, 3)] [1, 2] := by
    constructor
    · norm_num
    · intro q2 hq2
      have h0 : rss [1, 2] [((0 : ℚ), (1 : ℚ)), (1, 3)] = 0 := by
        norm_num [rss, evalPoly]
      rw [h0]
      exact rss_nonneg q2 _
  have hall := C8_fit_idempotence [((0 : ℚ), (1 : ℚ)), (1, 3)] 1 [1, 2] [1, 2]
    (by norm_num)
    (by
      intro pt hpt
      rcases List.mem_cons.mp hpt with h | h
      · rw [h]; norm_num [evalPoly]
      · rcases List.mem_cons.mp h with h2 | h2
        · rw [h2]; norm_num [evalPoly]
        · exact absurd h2 (List.not_mem_nil pt))
    hp
  exact hall ((0 : ℚ), (1 : ℚ)) (List.mem_cons_self _ _)

/-- C9: `list_entries`'s sort is stable: for any reference entry `a`,
the subsequence of output entries whose sort column equals `a`'s is
exactly the subsequence of surviving entries in their original store
iteration order — so two entries with equal key values keep their
original relative order in the output. -/
theorem C9_sort_stability (db : List Entry) (today : ℤ) (argDays : Option ℤ)
    (k : SortKey) (argTags : List String) (a : Entry) :
    ((list_entries db today argDays k argTags).1).filter (keyEq k a)
      = ((db.filter (fun e => today - e.date ≤ list_days argDays)).filter
            (fun e => !list_skip (parseTags argTags).1 (parseTags argTags).2 e)).filter
          (keyEq k a) := by
  unfold list_entries list_entries_core
  rw [List.filter_filter, List.filter_filter]
  apply filter_sortStable
  intro x y hx hy
  cases k with
  | name =>
    simp only [keyEq, Bool.and_eq_true, decide_eq_true_eq] at hx hy
    simp [keyLe, ← hx.1, ← hy.1]
  | cost =>
    simp only [keyEq, Bool.and_eq_true, decide_eq_true_eq] at hx hy
    simp [keyLe, ← hx.1, ← hy.1]
  | date =>
    simp only [keyEq, Bool.and_eq_true, decide_eq_true_eq] at hx hy
    simp [keyLe, ← hx.1, ← hy.1]

end Expenses
